import Mathlib

/-!
# Verification of the directory-reconciliation engine

Shallow embedding of the `gs-utils` filesystem subsystem:

* `searchFilesRecursive`  — `src/fs/search-files-recursive.js`
* `compareFileStatSize`   — `src/fs/sync-directories.js` (default comparator)
* `syncDirectories`       — `src/fs/sync-directories.js` (copy loop, stale
  cleanup `cleanOutputDirectory`, pruning via `cleanEmptyFoldersRecursively`)
* `cleanEmptyFoldersRecursively` — the pruner imported by `sync-directories.js`
* `cleanEmptyFolders` / `cleanEmptyFoldersHandler` — `src/fs/clean-empty-folders.js`

Filesystem trees are finite labelled trees; relative paths are lists of
name segments (`path.join root p` becomes list append, which is injective,
so path identity is preserved).
-/

/-- A filesystem path, as a list of name segments. -/
abbrev FilePathSegs := List String

mutual

/-- A filesystem tree: a file carries its stat data (size and mtime, both
as naturals: bytes and milliseconds-since-epoch), a directory carries a
finite list of named children.  `FSEntries` is the dirent list returned by
`fs.readdir(dir, { withFileTypes: true })`. -/
inductive FSTree where
  | file (size : Nat) (mtime : Nat) : FSTree
  | dir (entries : FSEntries) : FSTree

/-- The children of a directory node, in readdir order. -/
inductive FSEntries where
  | nil : FSEntries
  | cons (name : String) (tree : FSTree) (rest : FSEntries) : FSEntries

end

mutual

/-- Resolve a path inside a tree, mirroring how the filesystem resolves a
relative path: each segment selects a child of the current directory. -/
def lookup : FSTree → FilePathSegs → Option FSTree
  | t, [] => some t
  | FSTree.file _ _, _ :: _ => none
  | FSTree.dir es, n :: rest => lookupEntries es n rest

/-- Resolve `n :: rest` among a dirent list: find the child named `n`
(readdir names are unique; for totality we take the first) and continue. -/
def lookupEntries : FSEntries → String → FilePathSegs → Option FSTree
  | FSEntries.nil, _, _ => none
  | FSEntries.cons name t r, n, rest =>
      if name = n then lookup t rest else lookupEntries r n rest

end

/-! ## PathEnumerator — `searchFilesRecursive` (src/fs/search-files-recursive.js)

The JS function readdirs `directory`, maps each entry to its path relative
to the original `base` (`path.relative(base, path.join(directory, entry.name))`,
i.e. `rel ++ [entry.name]` in segment form), recurses into every directory
entry unconditionally, flattens, and finally applies `options.filter` (when
it is a function) to the flattened list of that invocation; with
`includeDirectories` a directory contributes its own relative path in front
of its recursive listing.  The `fullPath` rendering option only re-bases the
returned strings and is not modelled (no claim mentions it). -/

mutual

/-- `searchFilesRecursive(directory, { filter, includeDirectories }, base)`
on the subtree `t` sitting at base-relative path `rel`. -/
def searchFilesRecursive (flt : Option (FilePathSegs → Bool)) (includeDirectories : Bool)
    (rel : FilePathSegs) : FSTree → List FilePathSegs
  | FSTree.file _ _ => []
  | FSTree.dir es =>
      let allFiles := searchEntriesAux flt includeDirectories rel es
      match flt with
      | some f => allFiles.filter f
      | none => allFiles

/-- The `entries.map(...)` + `files.flat()` part of one readdir level. -/
def searchEntriesAux (flt : Option (FilePathSegs → Bool)) (includeDirectories : Bool)
    (rel : FilePathSegs) : FSEntries → List FilePathSegs
  | FSEntries.nil => []
  | FSEntries.cons name (FSTree.file _ _) r =>
      (rel ++ [name]) :: searchEntriesAux flt includeDirectories rel r
  | FSEntries.cons name (FSTree.dir es) r =>
      let nextEntry := searchFilesRecursive flt includeDirectories (rel ++ [name]) (FSTree.dir es)
      (if includeDirectories then (rel ++ [name]) :: nextEntry else nextEntry)
        ++ searchEntriesAux flt includeDirectories rel r

end

example :
    searchFilesRecursive none false []
      (FSTree.dir (FSEntries.cons "a.txt" (FSTree.file 10 100)
        (FSEntries.cons "b" (FSTree.dir (FSEntries.cons "c.txt" (FSTree.file 5 7) FSEntries.nil))
          FSEntries.nil)))
      = [["a.txt"], ["b", "c.txt"]] := rfl

example :
    searchFilesRecursive (some (fun p => p ≠ ["b", "c.txt"])) true []
      (FSTree.dir (FSEntries.cons "a.txt" (FSTree.file 10 100)
        (FSEntries.cons "b" (FSTree.dir (FSEntries.cons "c.txt" (FSTree.file 5 7) FSEntries.nil))
          FSEntries.nil)))
      = [["a.txt"], ["b"]] := by decide

/-! ## Stats and the default Comparator (src/fs/sync-directories.js, compareFileStatSize)

`fs.statSync` yields a `Stats` object whose `mtime` field is a JavaScript
`Date` object.  Each `Stats` object carries its own freshly allocated
`Date`, and JavaScript `===` between two objects is reference equality, so
`statsA.mtime === statsB.mtime` compares the identities of two distinct
`Date` allocations.  We model a `Date` as a reference id paired with its
time value, and `===` as equality of the ids; the two `Date`s materialised
by one `compareFileStatSize` call get the distinct ids 0 and 1. -/

/-- A JavaScript `Date` object: allocation identity plus time value. -/
structure JSDate where
  ref : Nat
  time : Nat

/-- JavaScript `===` on two `Date` objects: reference equality. -/
def jsStrictEqDate (a b : JSDate) : Bool := a.ref == b.ref

/-- `fs.statSync` on a path inside a tree: `(size, mtimeMs)` for a file.
`statSync` also succeeds on directories; their stat values never influence
any result below, so they are modelled as `(0, 0)`. A missing path throws,
modelled as `none`. -/
def statAt (t : FSTree) (p : FilePathSegs) : Option (Nat × Nat) :=
  match lookup t p with
  | some (FSTree.file s m) => some (s, m)
  | some (FSTree.dir _) => some (0, 0)
  | none => none

/-- `compareFileStatSize(filePathA, filePathB)` from src/fs/sync-directories.js:
stat both paths (A against the input tree, B against the output tree, as the
caller resolves them), compare `size` with `===` and `mtime` with `===`;
any stat failure is caught and yields `false`. -/
def compareFileStatSize (inputTree outputTree : FSTree)
    (filePathA filePathB : FilePathSegs) : Bool :=
  match statAt inputTree filePathA, statAt outputTree filePathB with
  | some statsA, some statsB =>
      let sizeIsSame := statsA.1 == statsB.1
      let mTimeIsSame := jsStrictEqDate ⟨0, statsA.2⟩ ⟨1, statsB.2⟩
      sizeIsSame && mTimeIsSame
  | _, _ => false

/-! ## Tree editing primitives used by the copy loop and the cleaner -/

/-- First child of a dirent list with the given name. -/
def findChild : FSEntries → String → Option FSTree
  | FSEntries.nil, _ => none
  | FSEntries.cons name t r, n => if name = n then some t else findChild r n

/-- Replace the child with the given name (append when absent, as
`fs.mkdirSync(..., { recursive: true })` creates missing components). -/
def updateChild : FSEntries → String → FSTree → FSEntries
  | FSEntries.nil, n, newT => FSEntries.cons n newT FSEntries.nil
  | FSEntries.cons name t r, n, newT =>
      if name = n then FSEntries.cons name newT r
      else FSEntries.cons name t (updateChild r n newT)

/-- `fs.mkdirSync(dirname, { recursive: true })` followed by
`fs.copyFileSync(inputPath, outputPath)`: create the missing intermediate
directories and write a file with the source's byte content (its size) and
a fresh modification time `clock`.  The enumerated source paths are always
files, so the degenerate cases leave the tree unchanged. -/
def insertFile : FSTree → FilePathSegs → Nat → Nat → FSTree
  | t, [], _, _ => t
  | FSTree.file a b, _ :: _, _, _ => FSTree.file a b
  | FSTree.dir es, [n], s, m => FSTree.dir (updateChild es n (FSTree.file s m))
  | FSTree.dir es, n :: n2 :: rest, s, m =>
      let child := (findChild es n).getD (FSTree.dir FSEntries.nil)
      FSTree.dir (updateChild es n (insertFile child (n2 :: rest) s m))

/-- `fs.unlinkSync` on the last path segment: remove the file with that
name; unlinking a directory throws (`EISDIR`), which the caller catches,
so a directory entry is left in place. -/
def unlinkChild : FSEntries → String → FSEntries
  | FSEntries.nil, _ => FSEntries.nil
  | FSEntries.cons name t r, n =>
      if name = n then
        match t with
        | FSTree.file _ _ => r
        | FSTree.dir es => FSEntries.cons name (FSTree.dir es) r
      else FSEntries.cons name t (unlinkChild r n)

/-- `fs.unlinkSync(path)`: delete the file at `p`.  A missing path or a
non-directory midway throws (`ENOENT`/`ENOTDIR`), caught by the caller, so
those cases leave the tree unchanged. -/
def unlinkFile : FSTree → FilePathSegs → FSTree
  | t, [] => t
  | FSTree.file a b, _ :: _ => FSTree.file a b
  | FSTree.dir es, [n] => FSTree.dir (unlinkChild es n)
  | FSTree.dir es, n :: n2 :: rest =>
      match findChild es n with
      | none => FSTree.dir es
      | some t => FSTree.dir (updateChild es n (unlinkFile t (n2 :: rest)))

/-! ## The pruner imported by src/fs/sync-directories.js
(`cleanEmptyFoldersRecursively`, src/unnamed/part_004)

For each entry the function recurses (a file is stat'ed, found not to be a
directory, and returned unchanged); afterwards it re-reads the directory,
discards `".DS_Store"` from the listing, and if nothing remains it removes
a `.DS_Store` entry when present (`fs.rm` without `recursive`, which
rejects on a directory — modelled as the error case) and then removes the
directory itself. -/

/-- The names of a dirent list, in order. -/
def entryNames : FSEntries → List String
  | FSEntries.nil => []
  | FSEntries.cons name _ r => name :: entryNames r

mutual

/-- `cleanEmptyFoldersRecursively(folder)` on a subtree: `Except.ok none`
means the folder was removed, `Except.ok (some t)` that it remains as `t`,
`Except.error ()` that an `fs.rm` rejection propagated. -/
def cleanEmptyFoldersRecursively : FSTree → Except Unit (Option FSTree)
  | FSTree.file s m => Except.ok (some (FSTree.file s m))
  | FSTree.dir es =>
      match cleanEmptyFoldersEntriesAux es with
      | Except.error e => Except.error e
      | Except.ok es2 =>
          let files := (entryNames es2).filter (fun n => n ≠ ".DS_Store")
          if files.isEmpty then
            match findChild es2 ".DS_Store" with
            | some (FSTree.dir _) => Except.error ()
            | _ => Except.ok none
          else Except.ok (some (FSTree.dir es2))

/-- The sequential `for (const file of files)` recursion over the children;
a removed child disappears from the re-read listing. -/
def cleanEmptyFoldersEntriesAux : FSEntries → Except Unit FSEntries
  | FSEntries.nil => Except.ok FSEntries.nil
  | FSEntries.cons name t r =>
      match cleanEmptyFoldersRecursively t with
      | Except.error e => Except.error e
      | Except.ok res =>
          match cleanEmptyFoldersEntriesAux r with
          | Except.error e => Except.error e
          | Except.ok r2 =>
              match res with
              | some t2 => Except.ok (FSEntries.cons name t2 r2)
              | none => Except.ok r2

end

/-! ## syncDirectories (src/fs/sync-directories.js) -/

/-- The pluggable Comparator: receives the two trees the caller resolves
the absolute paths against and the relative path joined onto both roots;
it may throw (`Except.error`). -/
abbrev Comparator := FSTree → FSTree → FilePathSegs → Except Unit Bool

/-- The default `compare` option: `compareFileStatSize(inputPath, outputPath)`,
which never throws (it catches stat errors internally). -/
def compareDefault : Comparator :=
  fun inputTree outputTree p => Except.ok (compareFileStatSize inputTree outputTree p p)

/-- `SyncOptions` after the `{ ...defaultOptions, ...inputOptions }` merge;
`none` for `filterInput`/`filterOutput` models the default `null` (the
`typeof filter === "function"` checks), `none` for `compare` means the
default comparator is used. -/
structure SyncOptions where
  filterInput : Option (FilePathSegs → Bool)
  filterOutput : Option (FilePathSegs → Bool)
  compare : Option Comparator
  cleanDirectory : Bool
  cleanEmpty : Bool

/-- The `defaultOptions` constant of src/fs/sync-directories.js. -/
def syncDefaultOptions : SyncOptions :=
  ⟨none, none, none, true, true⟩

/-- `searchFilesRecursive(directory)` as syncDirectories calls it: default
options (no filter, files only, relative paths). -/
def defaultEnumeration (t : FSTree) : List FilePathSegs :=
  searchFilesRecursive none false [] t

/-- `filteredInputFiles`: the input enumeration filtered by `filterInput`
when it is a function. -/
def filteredInputFiles (opts : SyncOptions) (t : FSTree) : List FilePathSegs :=
  match opts.filterInput with
  | some f => (defaultEnumeration t).filter f
  | none => defaultEnumeration t

/-- `filteredOutputFiles`: the output enumeration filtered by
`filterOutput` when it is a function. -/
def filteredOutputFiles (opts : SyncOptions) (t : FSTree) : List FilePathSegs :=
  match opts.filterOutput with
  | some f => (defaultEnumeration t).filter f
  | none => defaultEnumeration t

/-- State carried through the copy loop: the output tree, a clock giving
fresh modification times to copied files, and the traces of copied paths
and of paths the comparator was invoked on. -/
structure SyncState where
  out : FSTree
  clock : Nat
  copied : List FilePathSegs
  compared : List FilePathSegs

/-- One `fs.copyFileSync(inputPath, outputPath)` preceded by the
`fs.mkdirSync(outputPathDirectory, { recursive: true })` guard. -/
def copyFileSyncStep (inputTree outTree : FSTree) (p : FilePathSegs) (clock : Nat) : FSTree :=
  match lookup inputTree p with
  | some (FSTree.file s _) => insertFile outTree p s clock
  | _ => outTree

/-- The `for (const filePath of filteredInputFiles)` loop of
syncDirectories: for each path, invoke `compare` (before the membership
test, as the source does), test `outputFilesSet.has(filePath)`, and copy
when `!existsInOutputPath || !filesAreSame`.  A comparator exception is
not caught and aborts the whole loop. -/
def syncLoop (cmp : Comparator) (inputTree : FSTree) (outputFilesSet : List FilePathSegs) :
    List FilePathSegs → SyncState → Except Unit SyncState
  | [], st => Except.ok st
  | filePath :: rest, st =>
      match cmp inputTree st.out filePath with
      | Except.error e => Except.error e
      | Except.ok filesAreSame =>
          let st1 : SyncState := ⟨st.out, st.clock, st.copied, st.compared ++ [filePath]⟩
          let existsInOutputPath := outputFilesSet.contains filePath
          let needsCopy := !existsInOutputPath || !filesAreSame
          let st2 : SyncState :=
            if needsCopy then
              ⟨copyFileSyncStep inputTree st1.out filePath st1.clock, st1.clock + 1,
                st1.copied ++ [filePath], st1.compared⟩
            else st1
          syncLoop cmp inputTree outputFilesSet rest st2

/-- Result of `cleanOutputDirectory`: the output tree after the deletions,
the stale paths whose deletion was attempted, and those actually removed. -/
structure CleanOutResult where
  tree : FSTree
  attempted : List FilePathSegs
  removed : List FilePathSegs

/-- `cleanOutputDirectory(inputFilesSet, outputFiles, outputDirectory)`:
for each enumerated output path not in the input set, try to
`fs.unlinkSync` it; the try/catch around the unlink logs a failure and the
loop continues.  `unlinkOk` is the environment's verdict on each unlink
(false models a permission error or a concurrent deletion). -/
def cleanOutputDirectory (inputFilesSet : List FilePathSegs) (unlinkOk : FilePathSegs → Bool)
    (outputTree : FSTree) : List FilePathSegs → CleanOutResult
  | [] => ⟨outputTree, [], []⟩
  | filePath :: rest =>
      if inputFilesSet.contains filePath then
        cleanOutputDirectory inputFilesSet unlinkOk outputTree rest
      else
        let t2 := if unlinkOk filePath then unlinkFile outputTree filePath else outputTree
        let r := cleanOutputDirectory inputFilesSet unlinkOk t2 rest
        ⟨r.tree, filePath :: r.attempted, (if unlinkOk filePath then [filePath] else []) ++ r.removed⟩

/-- The outcome of a syncDirectories run: final output tree (`none` when
the pruner removed the output root), the copied and compared traces, the
stale-cleanup traces, and the final clock. -/
structure SyncResult where
  out : Option FSTree
  copied : List FilePathSegs
  compared : List FilePathSegs
  cleanAttempted : List FilePathSegs
  cleanRemoved : List FilePathSegs
  clock : Nat

/-- `syncDirectories(inputDirectory, outputDirectory, inputOptions)` from
src/fs/sync-directories.js: enumerate both trees, filter each enumeration,
run the copy loop, then (by option) `cleanOutputDirectory` and
`cleanEmptyFoldersRecursively(outputDirectory)`. -/
def syncDirectories (options : SyncOptions) (unlinkOk : FilePathSegs → Bool)
    (inputTree outputTree : FSTree) (clock0 : Nat) : Except Unit SyncResult :=
  let fIn := filteredInputFiles options inputTree
  let fOut := filteredOutputFiles options outputTree
  let inputFilesSet := fIn
  let outputFilesSet := fOut
  let cmp := options.compare.getD compareDefault
  match syncLoop cmp inputTree outputFilesSet fIn ⟨outputTree, clock0, [], []⟩ with
  | Except.error e => Except.error e
  | Except.ok st =>
      let cr : CleanOutResult :=
        if options.cleanDirectory then cleanOutputDirectory inputFilesSet unlinkOk st.out fOut
        else ⟨st.out, [], []⟩
      if options.cleanEmpty then
        match cleanEmptyFoldersRecursively cr.tree with
        | Except.error e => Except.error e
        | Except.ok o => Except.ok ⟨o, st.copied, st.compared, cr.attempted, cr.removed, st.clock⟩
      else Except.ok ⟨some cr.tree, st.copied, st.compared, cr.attempted, cr.removed, st.clock⟩

/-! ## EmptyDirectoryPruner — `cleanEmptyFolders` (src/fs/clean-empty-folders.js)

The handler recurses into every child directory, collects the entries that
remain (`remainingFiles`: the original files plus the child directories
that were not removed), discards the hidden marker names when
`deleteHiddenFiles` is set (`workingFiles`), and removes the directory —
after `fs.rm`-ing each remaining entry — exactly when `workingFiles` is
empty and `depth > 0`.  `maxDepth > 0` stops recursion below that depth,
and a directory rejected by `filter` (at `depth > 0`) is returned
untouched.  `fs.rm` without `recursive` rejects on a directory, so a
retained subdirectory with a hidden name makes the removal pass fail; the
rejection propagates (`errored`), with the file entries gone and the
directory entries still in place. -/

/-- `HIDDEN_FILES_SET` from src/fs/clean-empty-folders.js. -/
def HIDDEN_FILES_SET : List String := [".DS_Store", "Desktop.ini"]

/-- `CleanEmptyOptions` after the defaults merge
(`{ deleteHiddenFiles: true, filter: null, maxDepth: 0 }`). -/
structure CleanEmptyOptions where
  deleteHiddenFiles : Bool
  filter : Option (String → Bool)
  maxDepth : Nat

/-- The `defaultOptions` constant of src/fs/clean-empty-folders.js. -/
def cleanEmptyDefaultOptions : CleanEmptyOptions := ⟨true, none, 0⟩

/-- `path.join(directory, name)` for the strings handed to `filter`. -/
def pathJoin (directory name : String) : String := directory ++ "/" ++ name

/-- Outcome of `cleanEmptyFoldersHandler` on one directory: it resolved to
`true` (removed), resolved to `false` with the directory now holding `t`
(kept), or rejected while the directory holds `t` (errored). -/
inductive CleanResult where
  | removed : CleanResult
  | kept (t : FSTree) : CleanResult
  | errored (t : FSTree) : CleanResult

/-- Keep only the entries whose name passes `keep`. -/
def filterEntries (keep : String → Bool) : FSEntries → FSEntries
  | FSEntries.nil => FSEntries.nil
  | FSEntries.cons name t r =>
      if keep name then FSEntries.cons name t (filterEntries keep r)
      else filterEntries keep r

/-- Number of entries. -/
def entriesLength : FSEntries → Nat
  | FSEntries.nil => 0
  | FSEntries.cons _ _ r => entriesLength r + 1

/-- Does the list hold a directory entry? -/
def hasDirEntry : FSEntries → Bool
  | FSEntries.nil => false
  | FSEntries.cons _ (FSTree.dir _) _ => true
  | FSEntries.cons _ (FSTree.file _ _) r => hasDirEntry r

/-- The directory entries alone (what survives the removal pass when a
directory entry makes one `fs.rm` reject: the file removals still happen). -/
def dirEntriesOnly : FSEntries → FSEntries
  | FSEntries.nil => FSEntries.nil
  | FSEntries.cons name (FSTree.dir es) r => FSEntries.cons name (FSTree.dir es) (dirEntriesOnly r)
  | FSEntries.cons _ (FSTree.file _ _) r => dirEntriesOnly r

mutual

/-- `cleanEmptyFoldersHandler(directory, inputOptions, depth)`. -/
def cleanEmptyFoldersHandler (opts : CleanEmptyOptions) (directory : String) (depth : Nat) :
    FSTree → CleanResult
  | FSTree.file s m => CleanResult.errored (FSTree.file s m)
  | FSTree.dir es =>
      if 0 < opts.maxDepth ∧ opts.maxDepth < depth then CleanResult.kept (FSTree.dir es)
      else
        let isIncluded : Bool :=
          match opts.filter with
          | some f => f directory
          | none => true
        if 0 < depth ∧ isIncluded = false then CleanResult.kept (FSTree.dir es)
        else
          match cleanEmptyChildrenAux opts directory depth es with
          | (remainingFiles, true) => CleanResult.errored (FSTree.dir remainingFiles)
          | (remainingFiles, false) =>
              let workingFiles :=
                if opts.deleteHiddenFiles then
                  filterEntries (fun name => !(HIDDEN_FILES_SET.contains name)) remainingFiles
                else remainingFiles
              if 0 < entriesLength workingFiles ∨ depth = 0 then
                CleanResult.kept (FSTree.dir remainingFiles)
              else if hasDirEntry remainingFiles then
                CleanResult.errored (FSTree.dir (dirEntriesOnly remainingFiles))
              else CleanResult.removed

/-- The `entries.map(...)` pass: files are kept, directories recurse and
are dropped when removed; a child rejection is recorded and surfaces after
all children settle (`Promise.all`). -/
def cleanEmptyChildrenAux (opts : CleanEmptyOptions) (directory : String) (depth : Nat) :
    FSEntries → FSEntries × Bool
  | FSEntries.nil => (FSEntries.nil, false)
  | FSEntries.cons name t r =>
      let rec2 := cleanEmptyChildrenAux opts directory depth r
      match t with
      | FSTree.file s m => (FSEntries.cons name (FSTree.file s m) rec2.1, rec2.2)
      | FSTree.dir es =>
          match cleanEmptyFoldersHandler opts (pathJoin directory name) (depth + 1) (FSTree.dir es) with
          | CleanResult.removed => (rec2.1, rec2.2)
          | CleanResult.kept t2 => (FSEntries.cons name t2 rec2.1, rec2.2)
          | CleanResult.errored t2 => (FSEntries.cons name t2 rec2.1, true)

end

/-- `cleanEmptyFolders(directory, inputOptions)`: the exported wrapper,
which starts the handler at depth 0. -/
def cleanEmptyFolders (opts : CleanEmptyOptions) (directory : String) (t : FSTree) : CleanResult :=
  cleanEmptyFoldersHandler opts directory 0 t

/-! ## Shared concrete fixtures -/

/-- An input tree holding the single file `a.txt` (10 bytes, mtime 100). -/
def treeA : FSTree := FSTree.dir (FSEntries.cons "a.txt" (FSTree.file 10 100) FSEntries.nil)

/-- An input tree holding `a.txt` and `b.txt`. -/
def treeAB : FSTree :=
  FSTree.dir (FSEntries.cons "a.txt" (FSTree.file 1 1)
    (FSEntries.cons "b.txt" (FSTree.file 2 2) FSEntries.nil))

/-- An empty directory. -/
def emptyDir : FSTree := FSTree.dir FSEntries.nil

/-- An unlink environment where every deletion succeeds. -/
def unlinkAll : FilePathSegs → Bool := fun _ => true

/-! ## The default comparator never reports equivalence -/

/-- `compareFileStatSize` always returns `false`: when either stat throws
the catch block returns `false`, and when both succeed the result is
`sizeIsSame && mTimeIsSame` where `mTimeIsSame` compares two freshly
allocated `Date` objects with `===`, i.e. by reference, which is `false`. -/
theorem compareFileStatSize_false (inputTree outputTree : FSTree)
    (filePathA filePathB : FilePathSegs) :
    compareFileStatSize inputTree outputTree filePathA filePathB = false := by
  unfold compareFileStatSize
  cases statAt inputTree filePathA <;> cases statAt outputTree filePathB <;>
    simp [jsStrictEqDate]

/-- The default `compare` option is the pure comparator constantly
reporting "not equivalent". -/
theorem compareDefault_eq (inputTree outputTree : FSTree) (p : FilePathSegs) :
    compareDefault inputTree outputTree p = Except.ok false := by
  unfold compareDefault
  rw [compareFileStatSize_false]

/-! ## Induction principles

`FSTree`/`FSEntries` are mutually inductive, so the built-in `induction`
tactic cannot be used directly; these recursors cover the two induction
patterns the proofs need: along a dirent list, and along the mutual
structure. -/

/-- List-style induction over a dirent list (the subtrees are opaque). -/
theorem FSEntries.listInduction {P : FSEntries → Prop} (h0 : P FSEntries.nil)
    (h1 : ∀ name t rest, P rest → P (FSEntries.cons name t rest)) :
    ∀ es : FSEntries, P es
  | FSEntries.nil => h0
  | FSEntries.cons n t r => h1 n t r (FSEntries.listInduction h0 h1 r)

mutual

/-- Simultaneous structural induction over a tree. -/
theorem FSTree.treeInduction {P : FSTree → Prop} {Q : FSEntries → Prop}
    (hfile : ∀ s m, P (FSTree.file s m))
    (hdir : ∀ es, Q es → P (FSTree.dir es))
    (hnil : Q FSEntries.nil)
    (hcons : ∀ name t rest, P t → Q rest → Q (FSEntries.cons name t rest)) :
    ∀ t : FSTree, P t
  | FSTree.file s m => hfile s m
  | FSTree.dir es => hdir es (FSEntries.entriesInduction hfile hdir hnil hcons es)

/-- Simultaneous structural induction over a dirent list. -/
theorem FSEntries.entriesInduction {P : FSTree → Prop} {Q : FSEntries → Prop}
    (hfile : ∀ s m, P (FSTree.file s m))
    (hdir : ∀ es, Q es → P (FSTree.dir es))
    (hnil : Q FSEntries.nil)
    (hcons : ∀ name t rest, P t → Q rest → Q (FSEntries.cons name t rest)) :
    ∀ es : FSEntries, Q es
  | FSEntries.nil => hnil
  | FSEntries.cons n t r =>
      hcons n t r (FSTree.treeInduction hfile hdir hnil hcons t)
        (FSEntries.entriesInduction hfile hdir hnil hcons r)

end

/-! ## Lemmas on cleanOutputDirectory (StaleFileCleaner) -/

/-- C4: during stale-file cleanup every stale output path (enumerated path
absent from the input set) has its deletion attempted, whatever the
individual unlink outcomes are — a failed deletion is caught and does not
stop the remaining deletions — and the removed paths are exactly the
attempted ones whose unlink succeeded. -/
theorem cleanOutputDirectory_attempted_removed (inputFilesSet : List FilePathSegs)
    (unlinkOk : FilePathSegs → Bool) :
    ∀ (outputFiles : List FilePathSegs) (outputTree : FSTree),
      (cleanOutputDirectory inputFilesSet unlinkOk outputTree outputFiles).attempted
          = outputFiles.filter (fun p => !(inputFilesSet.contains p)) ∧
        (cleanOutputDirectory inputFilesSet unlinkOk outputTree outputFiles).removed
          = (outputFiles.filter (fun p => !(inputFilesSet.contains p))).filter unlinkOk := by
  intro outputFiles
  induction outputFiles with
  | nil => intro t; simp [cleanOutputDirectory]
  | cons p rest ih =>
    intro t
    by_cases hmem : p ∈ inputFilesSet
    · obtain ⟨h1, h2⟩ := ih t
      simp [cleanOutputDirectory, hmem, List.filter_cons, h1, h2]
    · by_cases hok : unlinkOk p
      · obtain ⟨h1, h2⟩ := ih (unlinkFile t p)
        simp [cleanOutputDirectory, hmem, hok, List.filter_cons, h1, h2]
      · obtain ⟨h1, h2⟩ := ih t
        simp [cleanOutputDirectory, hmem, hok, List.filter_cons, h1, h2]

/-! ### unlink preserves every other file -/

/-- `lookupEntries` through the child named `n` is lookup in `findChild`'s
result. -/
theorem lookupEntries_eq_findChild (n : String) (q : FilePathSegs) (es : FSEntries) :
    lookupEntries es n q =
      (match findChild es n with
        | some t => lookup t q
        | none => none) := by
  induction es using FSEntries.listInduction with
  | h0 => simp [lookupEntries, findChild]
  | h1 name t r ih =>
    by_cases h : name = n
    · simp [lookupEntries, findChild, h]
    · simp [lookupEntries, findChild, h, ih]

/-- Updating the child named `n` does not change lookups through another
name. -/
theorem lookupEntries_updateChild_other (n : String) (newT : FSTree) (k : String)
    (q : FilePathSegs) (hk : k ≠ n) (es : FSEntries) :
    lookupEntries (updateChild es n newT) k q = lookupEntries es k q := by
  induction es using FSEntries.listInduction with
  | h0 => simp [updateChild, lookupEntries, Ne.symm hk]
  | h1 name t r ih =>
    by_cases h : name = n
    · subst h
      simp [updateChild, lookupEntries, Ne.symm hk]
    · simp [updateChild, lookupEntries, h, ih]

/-- Updating the child named `n` makes lookups through `n` land in the new
subtree, provided some child named `n` already exists. -/
theorem lookupEntries_updateChild_same (n : String) (newT : FSTree) (q : FilePathSegs)
    (es : FSEntries) (hsome : (findChild es n).isSome) :
    lookupEntries (updateChild es n newT) n q = lookup newT q := by
  induction es using FSEntries.listInduction with
  | h0 => simp [findChild] at hsome
  | h1 name t r ih =>
    by_cases h : name = n
    · simp [updateChild, lookupEntries, h]
    · simp only [findChild, h, if_false, ite_false] at hsome
      simpa [updateChild, lookupEntries, h] using ih hsome

/-- Unlinking the last segment `n` preserves any file reachable through a
different location (`¬(k = n ∧ q = [])`). -/
theorem lookupEntries_unlinkChild (n k : String) (q : FilePathSegs) (s m : Nat)
    (hne : ¬(k = n ∧ q = [])) (es : FSEntries)
    (hq : lookupEntries es k q = some (FSTree.file s m)) :
    lookupEntries (unlinkChild es n) k q = some (FSTree.file s m) := by
  induction es using FSEntries.listInduction with
  | h0 => simp [lookupEntries] at hq
  | h1 name t r ih =>
    by_cases hn : name = n
    · subst hn
      by_cases hk : name = k
      · subst hk
        simp only [lookupEntries, if_pos rfl] at hq
        cases t with
        | file a b =>
          cases q with
          | nil => exact absurd ⟨rfl, rfl⟩ hne
          | cons x xs => simp [lookup] at hq
        | dir es2 => simpa [unlinkChild, lookupEntries] using hq
      · simp only [lookupEntries, if_neg (fun h => hk h)] at hq
        cases t with
        | file a b => simpa [unlinkChild, lookupEntries] using hq
        | dir es2 => simpa [unlinkChild, lookupEntries, hk] using hq
    · by_cases hk : name = k
      · subst hk
        simp only [lookupEntries, if_pos rfl] at hq
        simpa [unlinkChild, lookupEntries, hn] using hq
      · simp only [lookupEntries, if_neg (fun h => hk h)] at hq
        simpa [unlinkChild, lookupEntries, hn, hk] using ih hq

/-- `fs.unlinkSync` on path `p` preserves every file at a path `q ≠ p`. -/
theorem unlinkFile_preserves_file :
    ∀ (p : FilePathSegs) (t : FSTree) (q : FilePathSegs) (s m : Nat),
      lookup t q = some (FSTree.file s m) → q ≠ p →
      lookup (unlinkFile t p) q = some (FSTree.file s m) := by
  intro p
  induction p with
  | nil => intro t q s m hq _; simpa [unlinkFile] using hq
  | cons n p2 ih =>
    intro t q s m hq hne
    cases t with
    | file a b => simpa [unlinkFile] using hq
    | dir es =>
      cases q with
      | nil => simp [lookup] at hq
      | cons k q2 =>
        simp only [lookup] at hq
        cases p2 with
        | nil =>
          have hKQ : ¬(k = n ∧ q2 = []) := by
            rintro ⟨rfl, rfl⟩; exact hne rfl
          simpa [unlinkFile, lookup] using lookupEntries_unlinkChild n k q2 s m hKQ es hq
        | cons n2 p3 =>
          by_cases hk : k = n
          · subst hk
            rw [lookupEntries_eq_findChild] at hq
            cases hfind : findChild es k with
            | none => rw [hfind] at hq; simp at hq
            | some t2 =>
              rw [hfind] at hq
              have hq2ne : q2 ≠ n2 :: p3 := by
                intro h; exact hne (by rw [h])
              have hrec := ih t2 q2 s m hq hq2ne
              have hred : unlinkFile (FSTree.dir es) (k :: n2 :: p3)
                  = FSTree.dir (updateChild es k (unlinkFile t2 (n2 :: p3))) := by
                simp [unlinkFile, hfind]
              rw [hred]
              simp only [lookup]
              rw [lookupEntries_updateChild_same k _ q2 es (by simp [hfind])]
              exact hrec
          · cases hfind : findChild es n with
            | none =>
              have hred : unlinkFile (FSTree.dir es) (n :: n2 :: p3) = FSTree.dir es := by
                simp [unlinkFile, hfind]
              rw [hred]
              simpa [lookup] using hq
            | some t2 =>
              have hred : unlinkFile (FSTree.dir es) (n :: n2 :: p3)
                  = FSTree.dir (updateChild es n (unlinkFile t2 (n2 :: p3))) := by
                simp [unlinkFile, hfind]
              rw [hred]
              simp only [lookup]
              rw [lookupEntries_updateChild_other n _ k q2 hk es]
              exact hq

/-- C5: stale-file cleanup deletes exactly those enumerated output paths
whose relative path is not a member of the filtered input set, and every
file whose path is in that input set is left untouched. -/
theorem cleanOutputDirectory_exact (inputFilesSet : List FilePathSegs) :
    ∀ (outputFiles : List FilePathSegs) (outputTree : FSTree),
      (cleanOutputDirectory inputFilesSet unlinkAll outputTree outputFiles).removed
          = outputFiles.filter (fun p => !(inputFilesSet.contains p)) ∧
        ∀ q s m, inputFilesSet.contains q = true →
          lookup outputTree q = some (FSTree.file s m) →
          lookup (cleanOutputDirectory inputFilesSet unlinkAll outputTree outputFiles).tree q
            = some (FSTree.file s m) := by
  intro outputFiles
  induction outputFiles with
  | nil =>
    intro t
    exact ⟨by simp [cleanOutputDirectory],
      fun q s m _ hq => by simpa [cleanOutputDirectory] using hq⟩
  | cons p rest ih =>
    intro t
    by_cases hmem : p ∈ inputFilesSet
    · obtain ⟨h1, h2⟩ := ih t
      refine ⟨by simp [cleanOutputDirectory, hmem, List.filter_cons, h1], ?_⟩
      intro q s m hqin hq
      simpa [cleanOutputDirectory, hmem] using h2 q s m hqin hq
    · obtain ⟨h1, h2⟩ := ih (unlinkFile t p)
      refine ⟨by simp [cleanOutputDirectory, hmem, List.filter_cons, h1, unlinkAll], ?_⟩
      intro q s m hqin hq
      have hqp : q ≠ p := by
        intro h
        rw [h] at hqin
        exact hmem (by simpa using hqin)
      have hq2 := unlinkFile_preserves_file p t q s m hq hqp
      simpa [cleanOutputDirectory, hmem, unlinkAll] using h2 q s m hqin hq2

/-! ## Lemmas on the copy loop -/

/-- With a comparator that returns a pure verdict `f` (never throws), the
copy loop succeeds, invokes the comparator on every path in order, and
copies exactly the paths satisfying `!outputFilesSet.contains p || !f p`. -/
theorem syncLoop_pure (cmp : Comparator) (inputTree : FSTree)
    (outputFilesSet : List FilePathSegs) (f : FilePathSegs → Bool)
    (hcmp : ∀ i o p, cmp i o p = Except.ok (f p)) :
    ∀ (ps : List FilePathSegs) (st : SyncState),
      ∃ st2, syncLoop cmp inputTree outputFilesSet ps st = Except.ok st2 ∧
        st2.copied = st.copied ++ ps.filter (fun p => !(outputFilesSet.contains p) || !(f p)) ∧
        st2.compared = st.compared ++ ps := by
  intro ps
  induction ps with
  | nil => intro st; exact ⟨st, rfl, by simp, by simp⟩
  | cons p rest ih =>
    intro st
    by_cases hcopy : p ∉ outputFilesSet ∨ f p = false
    · have hb : (!(outputFilesSet.contains p) || !(f p)) = true := by
        rcases hcopy with h | h <;> simp [h]
      obtain ⟨st2, heq, hcop, hcmpd⟩ :=
        ih ⟨copyFileSyncStep inputTree st.out p st.clock, st.clock + 1,
          st.copied ++ [p], st.compared ++ [p]⟩
      refine ⟨st2, ?_, ?_, ?_⟩
      · simpa [syncLoop, hcmp, hcopy] using heq
      · rw [hcop]; simp [List.filter_cons, hb, hcopy]
      · rw [hcmpd]; simp
    · have hb : (!(outputFilesSet.contains p) || !(f p)) = false := by
        push_neg at hcopy
        simp [hcopy.1, hcopy.2]
      obtain ⟨st2, heq, hcop, hcmpd⟩ :=
        ih ⟨st.out, st.clock, st.copied, st.compared ++ [p]⟩
      refine ⟨st2, ?_, ?_, ?_⟩
      · simpa [syncLoop, hcmp, hcopy] using heq
      · rw [hcop]; simp [List.filter_cons, hb, hcopy]
      · rw [hcmpd]; simp

/-- The comparator call is not wrapped in any try/catch: if the comparator
rejects for some path (all paths before it resolving normally), the whole
loop rejects with that error. -/
theorem syncLoop_error (cmp : Comparator) (inputTree : FSTree)
    (outputFilesSet : List FilePathSegs) (g : FilePathSegs → Except Unit Bool)
    (hg : ∀ i o q, cmp i o q = g q) :
    ∀ (l1 : List FilePathSegs) (p : FilePathSegs) (l2 : List FilePathSegs) (e : Unit)
      (st : SyncState),
      (∀ q ∈ l1, ∃ b, g q = Except.ok b) → g p = Except.error e →
      syncLoop cmp inputTree outputFilesSet (l1 ++ p :: l2) st = Except.error e := by
  intro l1
  induction l1 with
  | nil =>
    intro p l2 e st _ herr
    simp [syncLoop, hg, herr]
  | cons q l1t ih =>
    intro p l2 e st hok herr
    obtain ⟨b, hb⟩ := hok q (by simp)
    have hrest : ∀ x ∈ l1t, ∃ c, g x = Except.ok c := fun x hx => hok x (by simp [hx])
    simp only [List.cons_append, syncLoop, hg, hb]
    exact ih p l2 e _ hrest herr

/-- With a pure comparator verdict `f`, a completed run has copied exactly
the filtered input paths with `!outputFilesSet.contains p || !f p`, and has
invoked the comparator on every filtered input path. -/
theorem syncDirectories_traces (options : SyncOptions) (unlinkOk : FilePathSegs → Bool)
    (inputTree outputTree : FSTree) (clock0 : Nat) (f : FilePathSegs → Bool) (r : SyncResult)
    (hcmp : ∀ i o p, options.compare.getD compareDefault i o p = Except.ok (f p))
    (hr : syncDirectories options unlinkOk inputTree outputTree clock0 = Except.ok r) :
    r.copied = (filteredInputFiles options inputTree).filter
        (fun p => !((filteredOutputFiles options outputTree).contains p) || !(f p)) ∧
      r.compared = filteredInputFiles options inputTree := by
  obtain ⟨st2, heq, hcop, hcmpd⟩ :=
    syncLoop_pure (options.compare.getD compareDefault) inputTree
      (filteredOutputFiles options outputTree) f hcmp
      (filteredInputFiles options inputTree) ⟨outputTree, clock0, [], []⟩
  simp only [syncDirectories] at hr
  rw [heq] at hr
  simp only [] at hr
  split at hr
  · split at hr
    · exact absurd hr (by simp)
    · injection hr with h
      subst h
      simp only []
      exact ⟨by simpa using hcop, by simpa using hcmpd⟩
  · injection hr with h
    subst h
    exact ⟨by simpa using hcop, by simpa using hcmpd⟩

/-! ## Comparators used by concrete runs -/

/-- A user comparator reporting every pair equivalent. -/
def compareAlwaysTrue : Comparator := fun _ _ _ => Except.ok true

/-- A user comparator that throws for `a.txt` and reports "different" for
every other file. -/
def compareThrowOnA : Comparator :=
  fun _ _ p => if p = ["a.txt"] then Except.error () else Except.ok false

/-! ## Claim C1 -/

/-- C1: for every path of the filtered input enumeration, a completed
`syncDirectories` run copies the file iff its relative path is absent from
the output enumeration set, or it is present and the comparator (here a
pure verdict `f` over the relative path, the same path the code joins onto
both absolute roots) returned false; a present path whose comparison
returned true is never copied. -/
theorem syncDirectories_copies_iff (options : SyncOptions) (unlinkOk : FilePathSegs → Bool)
    (inputTree outputTree : FSTree) (clock0 : Nat) (f : FilePathSegs → Bool) (r : SyncResult)
    (p : FilePathSegs)
    (hcmp : ∀ i o q, options.compare.getD compareDefault i o q = Except.ok (f q))
    (hp : p ∈ filteredInputFiles options inputTree)
    (hr : syncDirectories options unlinkOk inputTree outputTree clock0 = Except.ok r) :
    p ∈ r.copied ↔
      ((filteredOutputFiles options outputTree).contains p = false ∨
        ((filteredOutputFiles options outputTree).contains p = true ∧ f p = false)) := by
  obtain ⟨hcop, -⟩ :=
    syncDirectories_traces options unlinkOk inputTree outputTree clock0 f r hcmp hr
  rw [hcop]
  by_cases hc : p ∈ filteredOutputFiles options outputTree <;>
    by_cases hf : f p = true <;>
      simp [List.mem_filter, hp, hc, hf]

/-- Witness for C1: the default options on a one-file input tree and an
empty output tree; the default comparator is the pure constant-false
verdict, the file is absent from the output set, and it is copied. -/
theorem syncDirectories_copies_iff_witness :
    ∃ r, syncDirectories syncDefaultOptions unlinkAll treeA emptyDir 0 = Except.ok r ∧
      (["a.txt"] ∈ r.copied ↔
        ((filteredOutputFiles syncDefaultOptions emptyDir).contains ["a.txt"] = false ∨
          ((filteredOutputFiles syncDefaultOptions emptyDir).contains ["a.txt"] = true ∧
            (fun _ => false) ["a.txt"] = false))) := by
  refine ⟨_, rfl, ?_⟩
  exact syncDirectories_copies_iff syncDefaultOptions unlinkAll treeA emptyDir 0
    (fun _ => false) _ ["a.txt"]
    (fun i o q => by simp [syncDefaultOptions, compareDefault_eq])
    (by decide) rfl

/-! ## Claim C9 -/

/-- C9 counterexample: with a one-file input, an empty output and a user
comparator, the comparator IS invoked for `a.txt` (`r.compared` holds it)
although `a.txt` is absent from the output enumeration set — the source
calls `compare(inputPath, outputPath)` before the `outputFilesSet.has`
test, so "the comparator is invoked only for paths present in the output
set" is false (the path is still scheduled for copy). -/
theorem syncDirectories_compares_absent_path_example :
    syncDirectories ⟨none, none, some compareAlwaysTrue, true, true⟩ unlinkAll treeA emptyDir 0
        = Except.ok ⟨some (FSTree.dir (FSEntries.cons "a.txt" (FSTree.file 10 0) FSEntries.nil)),
            [["a.txt"]], [["a.txt"]], [], [], 1⟩ ∧
      (filteredOutputFiles ⟨none, none, some compareAlwaysTrue, true, true⟩ emptyDir).contains
          ["a.txt"] = false :=
  ⟨rfl, rfl⟩

/-- C9 amended: during a completed run with a pure comparator verdict `f`,
the comparator is invoked on every filtered input path (present in the
output set or not), and every input path absent from the output set is
scheduled for copy unconditionally, whatever `f` returns for it. -/
theorem syncDirectories_compares_all_copies_absent (options : SyncOptions)
    (unlinkOk : FilePathSegs → Bool) (inputTree outputTree : FSTree) (clock0 : Nat)
    (f : FilePathSegs → Bool) (r : SyncResult)
    (hcmp : ∀ i o q, options.compare.getD compareDefault i o q = Except.ok (f q))
    (hr : syncDirectories options unlinkOk inputTree outputTree clock0 = Except.ok r) :
    r.compared = filteredInputFiles options inputTree ∧
      ∀ p ∈ filteredInputFiles options inputTree,
        (filteredOutputFiles options outputTree).contains p = false → p ∈ r.copied := by
  obtain ⟨hcop, hcmpd⟩ :=
    syncDirectories_traces options unlinkOk inputTree outputTree clock0 f r hcmp hr
  refine ⟨hcmpd, ?_⟩
  intro p hp hc
  rw [hcop]
  simp at hc
  simp [List.mem_filter, hp, hc]

/-- Witness for C9's amended statement: one input file, empty output,
comparator constantly true: the file is compared and still copied. -/
theorem syncDirectories_compares_all_copies_absent_witness :
    ∃ r, syncDirectories ⟨none, none, some compareAlwaysTrue, true, true⟩ unlinkAll
          treeA emptyDir 0 = Except.ok r ∧
      r.compared = filteredInputFiles ⟨none, none, some compareAlwaysTrue, true, true⟩ treeA ∧
      ["a.txt"] ∈ r.copied := by
  refine ⟨_, rfl, ?_, ?_⟩
  · exact (syncDirectories_compares_all_copies_absent
      ⟨none, none, some compareAlwaysTrue, true, true⟩ unlinkAll treeA emptyDir 0
      (fun _ => true) _ (fun i o q => rfl) rfl).1
  · exact (syncDirectories_compares_all_copies_absent
      ⟨none, none, some compareAlwaysTrue, true, true⟩ unlinkAll treeA emptyDir 0
      (fun _ => true) _ (fun i o q => rfl) rfl).2 ["a.txt"] (by decide) (by decide)

/-! ## Claim C3 -/

/-- C3 counterexample: two files present at both ends, a user comparator
that throws for `a.txt` and answers normally for `b.txt`.  The claim says
the run completes with `a.txt` copied; in fact nothing guards the
`compare` call, so the run rejects with the comparator's error. -/
theorem syncDirectories_comparator_throw_aborts_example :
    syncDirectories ⟨none, none, some compareThrowOnA, true, true⟩ unlinkAll treeAB treeAB 0
      = Except.error () := rfl

/-- C3 amended: when the comparator throws for one filtered input path
(after answering normally for the paths before it), the whole
`syncDirectories` run aborts with that error instead of completing — the
failure is not scoped to the single file. -/
theorem syncDirectories_comparator_throw_aborts (options : SyncOptions)
    (unlinkOk : FilePathSegs → Bool) (inputTree outputTree : FSTree) (clock0 : Nat)
    (g : FilePathSegs → Except Unit Bool) (l1 : List FilePathSegs) (p : FilePathSegs)
    (l2 : List FilePathSegs) (e : Unit)
    (hcmp : ∀ i o q, options.compare.getD compareDefault i o q = g q)
    (hsplit : filteredInputFiles options inputTree = l1 ++ p :: l2)
    (hok : ∀ q ∈ l1, ∃ b, g q = Except.ok b)
    (herr : g p = Except.error e) :
    syncDirectories options unlinkOk inputTree outputTree clock0 = Except.error e := by
  have hloop := syncLoop_error (options.compare.getD compareDefault) inputTree
    (filteredOutputFiles options outputTree) g hcmp l1 p l2 e
    ⟨outputTree, clock0, [], []⟩ hok herr
  simp only [syncDirectories]
  rw [hsplit, hloop]

/-- Witness for C3's amended statement: a single-file tree whose
comparator throws immediately; the run rejects. -/
theorem syncDirectories_comparator_throw_aborts_witness :
    syncDirectories ⟨none, none, some compareThrowOnA, true, true⟩ unlinkAll treeA treeA 0
      = Except.error () := by
  exact syncDirectories_comparator_throw_aborts
    ⟨none, none, some compareThrowOnA, true, true⟩ unlinkAll treeA treeA 0
    (fun p => if p = ["a.txt"] then Except.error () else Except.ok false)
    [] ["a.txt"] [] ()
    (fun i o q => rfl) (by decide) (by simp) rfl

/-! ## Claim C2 -/

/-- C2: running `syncDirectories` twice in succession with default options
and no external change does NOT produce zero copies on the second run: the
default comparator compares the two `Date` objects with `===` (reference
equality), so it never reports equivalence and `a.txt` is re-copied. -/
theorem syncDirectories_second_run_recopies :
    (match syncDirectories syncDefaultOptions unlinkAll treeA emptyDir 0 with
      | Except.ok r1 =>
          (match r1.out with
            | some t1 =>
                (match syncDirectories syncDefaultOptions unlinkAll treeA t1 r1.clock with
                  | Except.ok r2 => some r2.copied
                  | Except.error _ => none)
            | none => none)
      | Except.error _ => none) = some [["a.txt"]] := rfl

/-! ## Claim C7 -/

/-- C7: the default comparator `compareFileStatSize` never returns true —
not even for two files of equal size and equal modification time — because
`statsA.mtime === statsB.mtime` compares two distinct `Date` objects by
reference.  (The permissive half of the claim does hold: a missing output
file or failing stat also yields false.)  This contradicts the function's
own documentation, which says it returns true when the stats are the
same. -/
theorem compareFileStatSize_never_true (inputTree outputTree : FSTree)
    (filePathA filePathB : FilePathSegs) :
    compareFileStatSize inputTree outputTree filePathA filePathB = false :=
  compareFileStatSize_false inputTree outputTree filePathA filePathB

/-- An output tree holding `a.txt` (matching the input) and a stale file. -/
def treeStale : FSTree :=
  FSTree.dir (FSEntries.cons "a.txt" (FSTree.file 10 100)
    (FSEntries.cons "stale.txt" (FSTree.file 3 4) FSEntries.nil))

/-- Witness for C5: with input set `{a.txt}` and output enumeration
`[a.txt, stale.txt]`, the cleanup removes exactly `stale.txt` and leaves
the file `a.txt` untouched. -/
theorem cleanOutputDirectory_exact_witness :
    (cleanOutputDirectory [["a.txt"]] unlinkAll treeStale [["a.txt"], ["stale.txt"]]).removed
        = [["stale.txt"]] ∧
      lookup (cleanOutputDirectory [["a.txt"]] unlinkAll treeStale [["a.txt"], ["stale.txt"]]).tree
          ["a.txt"] = some (FSTree.file 10 100) := by
  have h := cleanOutputDirectory_exact [["a.txt"]] [["a.txt"], ["stale.txt"]] treeStale
  exact ⟨by rw [h.1]; rfl, h.2 ["a.txt"] 10 100 (by decide) rfl⟩

/-! ## Claim C6 -/

/-- C6: the root directory handed to `cleanEmptyFolders` is never removed,
regardless of options, of the filter, and of whether it ends up with zero
entries: at depth 0 the handler's `workingFiles.length > 0 || depth === 0`
test always holds, so the root is retained (or survives an error), never
deleted. -/
theorem cleanEmptyFolders_never_removes_root (opts : CleanEmptyOptions)
    (directory : String) (t : FSTree) :
    cleanEmptyFolders opts directory t ≠ CleanResult.removed := by
  unfold cleanEmptyFolders
  cases t with
  | file s m => simp [cleanEmptyFoldersHandler]
  | dir es =>
    simp only [cleanEmptyFoldersHandler]
    split
    · simp
    · split
      · simp
      · split
        · simp
        · simp

/-! ## Claim C8 — the filter governs inclusion, not traversal -/

/-- Enumerating with a filter equals enumerating without one and filtering
the result: the per-level `allFiles.filter(filter)` composes to a single
filter over the full listing, because the same predicate is applied to the
same base-relative path at every level. -/
theorem searchFilesRecursive_some_eq (f : FilePathSegs → Bool) (incD : Bool) :
    ∀ t : FSTree, ∀ rel,
      searchFilesRecursive (some f) incD rel t
        = (searchFilesRecursive none incD rel t).filter f := by
  refine @FSTree.treeInduction
    (fun t => ∀ rel, searchFilesRecursive (some f) incD rel t
        = (searchFilesRecursive none incD rel t).filter f)
    (fun es => ∀ rel, (searchEntriesAux (some f) incD rel es).filter f
        = (searchEntriesAux none incD rel es).filter f)
    ?_ ?_ ?_ ?_
  · intro s m rel; simp [searchFilesRecursive]
  · intro es hes rel
    simp only [searchFilesRecursive]
    exact hes rel
  · intro rel; simp [searchEntriesAux]
  · intro name t rest ht hrest rel
    cases t with
    | file s m =>
      cases h : f (rel ++ [name]) <;>
        simp [searchEntriesAux, List.filter_cons, h, hrest rel]
    | dir es2 =>
      have hnext := ht (rel ++ [name])
      cases incD with
      | false =>
        simp [searchEntriesAux, List.filter_append, hnext, hrest rel,
          List.filter_filter, Bool.and_self]
      | true =>
        cases h : f (rel ++ [name]) <;>
          simp [searchEntriesAux, List.filter_append, List.filter_cons, h, hnext,
            hrest rel, List.filter_filter, Bool.and_self]

/-- Every file of the tree appears in the unfiltered enumeration, at its
base-relative path. -/
theorem lookup_file_mem_searchNone (incD : Bool) :
    ∀ t : FSTree, ∀ (rel q : FilePathSegs) (s m : Nat), q ≠ [] →
      lookup t q = some (FSTree.file s m) →
      (rel ++ q) ∈ searchFilesRecursive none incD rel t := by
  refine @FSTree.treeInduction
    (fun t => ∀ (rel q : FilePathSegs) (s m : Nat), q ≠ [] →
      lookup t q = some (FSTree.file s m) →
      (rel ++ q) ∈ searchFilesRecursive none incD rel t)
    (fun es => ∀ (rel : FilePathSegs) (k : String) (tl : FilePathSegs) (s m : Nat),
      lookupEntries es k tl = some (FSTree.file s m) →
      (rel ++ k :: tl) ∈ searchEntriesAux none incD rel es)
    ?_ ?_ ?_ ?_
  · intro s m rel q s2 m2 hne hq
    cases q with
    | nil => exact absurd rfl hne
    | cons x xs => simp [lookup] at hq
  · intro es hes rel q s m hne hq
    cases q with
    | nil => exact absurd rfl hne
    | cons k tl =>
      simp only [lookup] at hq
      simpa [searchFilesRecursive] using hes rel k tl s m hq
  · intro rel k tl s m hq
    simp [lookupEntries] at hq
  · intro name t rest ht hrest rel k tl s m hq
    by_cases hk : name = k
    · subst hk
      simp only [lookupEntries, if_pos rfl] at hq
      cases t with
      | file s2 m2 =>
        cases tl with
        | nil =>
          simp only [lookup, Option.some.injEq, FSTree.file.injEq] at hq
          simp [searchEntriesAux]
        | cons x xs => simp [lookup] at hq
      | dir es2 =>
        have htl : tl ≠ [] := by
          intro h; subst h; simp [lookup] at hq
        have hmem := ht (rel ++ [name]) tl s m htl hq
        have hassoc : rel ++ [name] ++ tl = rel ++ name :: tl := by simp
        rw [hassoc] at hmem
        cases incD <;> simp [searchEntriesAux, hmem]
    · simp only [lookupEntries, if_neg (fun h => hk h)] at hq
      have hmem := hrest rel k tl s m hq
      cases t with
      | file s2 m2 => simp [searchEntriesAux, hmem]
      | dir es3 => cases incD <;> simp [searchEntriesAux, hmem]

/-- C8: in the recursive enumeration the filter governs only inclusion,
never traversal — for a directory `d` rejected by the filter, enumeration
still recurses into it, and a file `d ++ q` beneath it that passes the
filter appears in the result. -/
theorem searchFilesRecursive_filter_governs_inclusion_only (f : FilePathSegs → Bool)
    (incD : Bool) (t : FSTree) (d q : FilePathSegs) (es2 : FSEntries) (s m : Nat)
    (hdir : lookup t d = some (FSTree.dir es2))
    (_hrej : f d = false)
    (hfile : lookup t (d ++ q) = some (FSTree.file s m))
    (hacc : f (d ++ q) = true) :
    (d ++ q) ∈ searchFilesRecursive (some f) incD [] t := by
  have hne : d ++ q ≠ [] := by
    intro h
    rcases List.append_eq_nil.mp h with ⟨hd, hql⟩
    rw [hd] at hdir
    rw [h] at hfile
    rw [hdir] at hfile
    exact absurd (Option.some.inj hfile) (by simp)
  have hmem := lookup_file_mem_searchNone incD t [] (d ++ q) s m hne hfile
  rw [searchFilesRecursive_some_eq f incD t []]
  rw [List.mem_filter]
  exact ⟨by simpa using hmem, hacc⟩

/-- A tree with a directory `skip` holding the file `f.txt`. -/
def treeNested : FSTree :=
  FSTree.dir (FSEntries.cons "skip"
    (FSTree.dir (FSEntries.cons "f.txt" (FSTree.file 1 1) FSEntries.nil)) FSEntries.nil)

/-- Witness for C8: the filter rejects the directory `skip` itself, yet
`skip/f.txt` (which the filter accepts) appears in the result. -/
theorem searchFilesRecursive_filter_governs_inclusion_only_witness :
    ["skip", "f.txt"] ∈
      searchFilesRecursive (some (fun p => !(p == ["skip"]))) false [] treeNested := by
  exact searchFilesRecursive_filter_governs_inclusion_only (fun p => !(p == ["skip"])) false
    treeNested ["skip"] ["f.txt"]
    (FSEntries.cons "f.txt" (FSTree.file 1 1) FSEntries.nil) 1 1
    rfl (by decide) rfl (by decide)

/-! ## Claim C10 — the pruner never deletes a non-hidden file -/

/-- The directory tree a `cleanEmptyFoldersHandler` call leaves behind:
`none` when it removed the directory, otherwise the retained (kept or
errored) state. -/
def cleanResultTree : CleanResult → Option FSTree
  | CleanResult.removed => none
  | CleanResult.kept t => some t
  | CleanResult.errored t => some t

/-- A direct child that the name-filter keeps makes the filtered entry
list non-empty. -/
theorem entriesLength_filterEntries_pos (keep : String → Bool) (k : String) (t0 : FSTree)
    (es : FSEntries) (hq : lookupEntries es k [] = some t0) (hkeep : keep k = true) :
    0 < entriesLength (filterEntries keep es) := by
  induction es using FSEntries.listInduction with
  | h0 => simp [lookupEntries] at hq
  | h1 name t r ih =>
    by_cases hk : name = k
    · subst hk
      simp [filterEntries, hkeep, entriesLength]
    · simp only [lookupEntries, if_neg (fun h => hk h)] at hq
      by_cases hkn : keep name = true
      · simp [filterEntries, hkn, entriesLength]
      · simp only [Bool.not_eq_true] at hkn
        simpa [filterEntries, hkn] using ih hq

/-- A resolvable child makes the entry list non-empty. -/
theorem entriesLength_pos_of_lookupEntries (k : String) (tl : FilePathSegs) (t0 : FSTree)
    (es : FSEntries) (hq : lookupEntries es k tl = some t0) :
    0 < entriesLength es := by
  cases es with
  | nil => simp [lookupEntries] at hq
  | cons name t r => simp [entriesLength]

/-- A file reached through at least two segments sits under a directory
entry, so the entry list holds a directory. -/
theorem hasDirEntry_of_deep_file (k t1 : String) (tl2 : FilePathSegs) (s m : Nat) :
    ∀ es : FSEntries, lookupEntries es k (t1 :: tl2) = some (FSTree.file s m) →
      hasDirEntry es = true := by
  intro es
  induction es using FSEntries.listInduction with
  | h0 => simp [lookupEntries]
  | h1 name t r ih =>
    intro hq
    by_cases hk : name = k
    · subst hk
      simp only [lookupEntries, if_pos rfl] at hq
      cases t with
      | file s2 m2 => simp [lookup] at hq
      | dir es2 => simp [hasDirEntry]
    · simp only [lookupEntries, if_neg (fun h => hk h)] at hq
      cases t with
      | file s2 m2 => simpa [hasDirEntry] using ih hq
      | dir es2 => simp [hasDirEntry]

/-- Dropping the file entries does not affect a lookup that goes through a
directory entry (a path with at least two segments). -/
theorem lookupEntries_dirEntriesOnly (k t1 : String) (tl2 : FilePathSegs) (s m : Nat) :
    ∀ es : FSEntries, lookupEntries es k (t1 :: tl2) = some (FSTree.file s m) →
      lookupEntries (dirEntriesOnly es) k (t1 :: tl2) = some (FSTree.file s m) := by
  intro es
  induction es using FSEntries.listInduction with
  | h0 => simp [lookupEntries]
  | h1 name t r ih =>
    intro hq
    by_cases hk : name = k
    · subst hk
      simp only [lookupEntries, if_pos rfl] at hq
      cases t with
      | file s2 m2 => simp [lookup] at hq
      | dir es2 => simpa [dirEntriesOnly, lookupEntries] using hq
    · simp only [lookupEntries, if_neg (fun h => hk h)] at hq
      cases t with
      | file s2 m2 => simpa [dirEntriesOnly] using ih hq
      | dir es2 => simpa [dirEntriesOnly, lookupEntries, hk] using ih hq

/-- Across one handler invocation at any depth and under any options, a
file whose name is not a hidden marker survives, and no directory holding
it (directly or transitively) is removed. -/
theorem cleanEmptyFoldersHandler_preserves (opts : CleanEmptyOptions) :
    ∀ t : FSTree, ∀ (dp : String) (depth : Nat) (k : String) (tl ps : FilePathSegs)
      (name : String) (s m : Nat),
      k :: tl = ps ++ [name] →
      lookup t (k :: tl) = some (FSTree.file s m) →
      HIDDEN_FILES_SET.contains name = false →
      ∃ t2, cleanResultTree (cleanEmptyFoldersHandler opts dp depth t) = some t2 ∧
        lookup t2 (k :: tl) = some (FSTree.file s m) := by
  refine @FSTree.treeInduction
    (fun t => ∀ (dp : String) (depth : Nat) (k : String) (tl ps : FilePathSegs)
      (name : String) (s m : Nat),
      k :: tl = ps ++ [name] →
      lookup t (k :: tl) = some (FSTree.file s m) →
      HIDDEN_FILES_SET.contains name = false →
      ∃ t2, cleanResultTree (cleanEmptyFoldersHandler opts dp depth t) = some t2 ∧
        lookup t2 (k :: tl) = some (FSTree.file s m))
    (fun es => ∀ (dp : String) (depth : Nat) (k : String) (tl ps : FilePathSegs)
      (name : String) (s m : Nat),
      k :: tl = ps ++ [name] →
      lookupEntries es k tl = some (FSTree.file s m) →
      HIDDEN_FILES_SET.contains name = false →
      lookupEntries (cleanEmptyChildrenAux opts dp depth es).1 k tl
        = some (FSTree.file s m))
    ?_ ?_ ?_ ?_
  · intro s0 m0 dp depth k tl ps name s m hsplit hq hname
    simp [lookup] at hq
  · intro es hes dp depth k tl ps name s m hsplit hq hname
    simp only [lookup] at hq
    have hq2 := hes dp depth k tl ps name s m hsplit hq hname
    simp only [cleanEmptyFoldersHandler]
    split
    · exact ⟨FSTree.dir es, rfl, by simpa [lookup] using hq⟩
    · split
      · exact ⟨FSTree.dir es, rfl, by simpa [lookup] using hq⟩
      · split
        next remaining heq =>
          rw [heq] at hq2
          exact ⟨FSTree.dir remaining, rfl, by simpa [lookup] using hq2⟩
        next remaining heq =>
          rw [heq] at hq2
          simp only [] at hq2
          cases hdel : opts.deleteHiddenFiles with
          | false =>
            simp only [hdel, Bool.false_eq_true, if_false]
            split
            next hcond =>
              exact ⟨FSTree.dir remaining, rfl, by simpa [lookup] using hq2⟩
            next hcond =>
              exact absurd (Or.inl
                (entriesLength_pos_of_lookupEntries k tl _ remaining hq2)) hcond
          | true =>
            simp only [hdel, if_true]
            split
            next hcond =>
              exact ⟨FSTree.dir remaining, rfl, by simpa [lookup] using hq2⟩
            next hcond =>
              rcases ps with _ | ⟨p0, ps2⟩
              · obtain ⟨hk, htl⟩ : k = name ∧ tl = [] := by
                  simp only [List.nil_append] at hsplit
                  exact ⟨(List.cons.inj hsplit).1, (List.cons.inj hsplit).2⟩
                subst hk
                subst htl
                exact absurd (Or.inl (entriesLength_filterEntries_pos
                    (fun n => !(HIDDEN_FILES_SET.contains n)) k _ remaining hq2
                    (by simpa using hname))) hcond
              · have htl : tl = ps2 ++ [name] := by
                  simp only [List.cons_append] at hsplit
                  exact (List.cons.inj hsplit).2
                cases htl2 : tl with
                | nil =>
                  rw [htl2] at htl
                  exact absurd htl.symm (by simp)
                | cons t1 tl2 =>
                  rw [htl2] at hq2
                  split
                  next hhasdir =>
                    refine ⟨FSTree.dir (dirEntriesOnly remaining), rfl, ?_⟩
                    simpa [lookup] using
                      lookupEntries_dirEntriesOnly k t1 tl2 s m remaining hq2
                  next hhasdir =>
                    exact absurd (hasDirEntry_of_deep_file k t1 tl2 s m remaining hq2)
                      hhasdir
  · intro dp depth k tl ps name s m hsplit hq hname
    simp [lookupEntries] at hq
  · intro name0 t0 r0 ht0 hr0 dp depth k tl ps name s m hsplit hq hname
    by_cases hk : name0 = k
    · subst hk
      simp only [lookupEntries, if_pos rfl] at hq
      cases t0 with
      | file s2 m2 =>
        cases tl with
        | nil =>
          simp [cleanEmptyChildrenAux, lookupEntries, lookup]
          simpa [lookup] using hq
        | cons x xs => simp [lookup] at hq
      | dir es0 =>
        cases tl with
        | nil => simp [lookup] at hq
        | cons t1 tl2 =>
          rcases ps with _ | ⟨p0, ps2⟩
          · simp at hsplit
          · have hsp2 : t1 :: tl2 = ps2 ++ [name] := by
              simp only [List.cons_append] at hsplit
              exact (List.cons.inj hsplit).2
            obtain ⟨t2, hres, hlook⟩ :=
              ht0 (pathJoin dp name0) (depth + 1) t1 tl2 ps2 name s m hsp2 hq hname
            simp only [cleanEmptyChildrenAux]
            cases hhandler : cleanEmptyFoldersHandler opts (pathJoin dp name0) (depth + 1)
                (FSTree.dir es0) with
            | removed =>
              rw [hhandler] at hres
              simp [cleanResultTree] at hres
            | kept t3 =>
              rw [hhandler] at hres
              simp only [cleanResultTree, Option.some.injEq] at hres
              subst hres
              simp [lookupEntries, hlook]
            | errored t3 =>
              rw [hhandler] at hres
              simp only [cleanResultTree, Option.some.injEq] at hres
              subst hres
              simp [lookupEntries, hlook]
    · simp only [lookupEntries, if_neg (fun h => hk h)] at hq
      have hmem := hr0 dp depth k tl ps name s m hsplit hq hname
      cases t0 with
      | file s2 m2 => simpa [cleanEmptyChildrenAux, lookupEntries, hk] using hmem
      | dir es0 =>
        simp only [cleanEmptyChildrenAux]
        cases hhandler : cleanEmptyFoldersHandler opts (pathJoin dp name0) (depth + 1)
            (FSTree.dir es0) with
        | removed => simpa using hmem
        | kept t3 => simpa [lookupEntries, hk] using hmem
        | errored t3 => simpa [lookupEntries, hk] using hmem

/-- C10: the pruner never deletes a non-hidden file — the only `fs.rm`
pass runs when every remaining entry name is in `HIDDEN_FILES_SET`
('.DS_Store', 'Desktop.ini'), so every file whose name is not in that set
that exists before `cleanEmptyFolders` still exists, at the same path with
the same stats, in the tree the call leaves behind. -/
theorem cleanEmptyFolders_preserves_nonhidden_files (opts : CleanEmptyOptions)
    (directory : String) (t : FSTree) (ps : FilePathSegs) (name : String) (s m : Nat)
    (hfile : lookup t (ps ++ [name]) = some (FSTree.file s m))
    (hname : HIDDEN_FILES_SET.contains name = false) :
    ∃ t2, cleanResultTree (cleanEmptyFolders opts directory t) = some t2 ∧
      lookup t2 (ps ++ [name]) = some (FSTree.file s m) := by
  rcases hshape : ps ++ [name] with _ | ⟨k, tl⟩
  · exact absurd hshape (by simp)
  · rw [hshape] at hfile
    obtain ⟨t2, h1, h2⟩ := cleanEmptyFoldersHandler_preserves opts t directory 0 k tl
      ps name s m hshape.symm hfile hname
    refine ⟨t2, ?_, h2⟩
    simpa [cleanEmptyFolders] using h1

/-- Witness for C10: pruning a tree holding the non-hidden file `a.txt`
keeps the root (with its file) intact. -/
theorem cleanEmptyFolders_preserves_nonhidden_files_witness :
    ∃ t2, cleanResultTree (cleanEmptyFolders cleanEmptyDefaultOptions "out" treeA) = some t2 ∧
      lookup t2 ["a.txt"] = some (FSTree.file 10 100) := by
  exact cleanEmptyFolders_preserves_nonhidden_files cleanEmptyDefaultOptions "out" treeA
    [] "a.txt" 10 100 rfl (by decide)
